import Mathlib

/-!
Verification of the task-extraction core of pulse-mvp.

The program is a Next.js app; its decision logic lives in
`src/pages/api/extract.ts` (the text cleaner `tidy`, the heuristic
extractor `mockExtract` and the model-backed extractor
`callOpenAIExtract`) and `src/pages/index.tsx` (the presentation
cleaner `cleanFollowUp`).  Strings are embedded as `List Char`
(JavaScript strings are UTF-16; for the Basic Multilingual Plane,
code points and code units coincide, and every claim here stays in
that range).  JavaScript regular-expression semantics (leftmost
match, ordered alternation, greedy quantifiers with backtracking)
are embedded by dedicated scanning functions whose faithfulness to
the specific patterns of the source is argued in comments at each
definition.
-/

namespace Pulse

/-! ## Character classes

`isWs` is the set matched by JavaScript `\s` (and trimmed by
`String.prototype.trim`): ASCII whitespace, NBSP, the Unicode
space separators, line separators and the BOM. -/

def isWs (c : Char) : Bool :=
  c.toNat = 0x20 || c.toNat = 0x09 || c.toNat = 0x0a || c.toNat = 0x0b ||
  c.toNat = 0x0c || c.toNat = 0x0d || c.toNat = 0xa0 || c.toNat = 0x1680 ||
  (0x2000 ≤ c.toNat && c.toNat ≤ 0x200a) || c.toNat = 0x2028 ||
  c.toNat = 0x2029 || c.toNat = 0x202f || c.toNat = 0x205f ||
  c.toNat = 0x3000 || c.toNat = 0xfeff

/-- The punctuation class `[.,;:!?]` of `tidy`'s first replacement. -/
def isPunct (c : Char) : Bool :=
  c = '.' || c = ',' || c = ';' || c = ':' || c = '!' || c = '?'

def isAsciiUpper (c : Char) : Bool := 'A' ≤ c && c ≤ 'Z'
def isAsciiLower (c : Char) : Bool := 'a' ≤ c && c ≤ 'z'
def isAsciiLetter (c : Char) : Bool := isAsciiUpper c || isAsciiLower c
def isAsciiDigit (c : Char) : Bool := '0' ≤ c && c ≤ '9'

/-- JavaScript regex word characters (`\w`, the class deciding `\b`). -/
def isWordChar (c : Char) : Bool :=
  isAsciiLetter c || isAsciiDigit c || c = '_'

/-- ASCII lower-casing: the canonicalisation a non-Unicode JavaScript
regex with the `i` flag applies (non-ASCII characters never fold to
ASCII ones in that mode). -/
def charLower (c : Char) : Char :=
  if isAsciiUpper c then Char.ofNat (c.toNat + 32) else c

def headIsWs : List Char → Bool
  | [] => false
  | c :: _ => isWs c

def headIsPunct : List Char → Bool
  | [] => false
  | c :: _ => isPunct c

def headIs (t : Char) : List Char → Bool
  | [] => false
  | c :: _ => c = t

/-! ## The text cleaner `tidy` (src/pages/api/extract.ts lines 13-19)

```js
text.replace(/\s+([.,;:!?])/g, "$1")   // step 1
    .replace(/([.]){2,}/g, ".")        // step 2
    .replace(/\s{2,}/g, " ")           // step 3
    .trim();
```

Step 1 deletes every maximal whitespace run that immediately
precedes a punctuation mark (backtracking cannot shorten the greedy
`\s+`, since a shorter run would have to be followed by one of its
own whitespace characters).  Character-wise this deletes exactly the
whitespace characters whose next non-whitespace character is
punctuation, which is the recursion below. -/

def dropWsBeforePunct : List Char → List Char
  | [] => []
  | c :: cs =>
    if isWs c && headIsPunct (cs.dropWhile isWs) then dropWsBeforePunct cs
    else c :: dropWsBeforePunct cs

/-- Step 2: `([.]){2,}` replaces every maximal run of two or more
periods by a single period (`$1` holds the last iteration, a period).
Character-wise: a period whose successor is a period is dropped, the
last period of each run survives. -/
def collapseDots : List Char → List Char
  | [] => []
  | c :: cs =>
    if c = '.' && headIs '.' cs then collapseDots cs
    else c :: collapseDots cs

/-- Step 3: `\s{2,}` replaces every maximal run of two or more
whitespace characters by one space; a lone whitespace character is
left as it is.  The flag records whether the current character
continues a run, so the run's last character is emitted as `' '`
exactly when the run had length at least two. -/
def collapseWsGo (prev : Bool) : List Char → List Char
  | [] => []
  | c :: cs =>
    if isWs c then
      if headIsWs cs then collapseWsGo true cs
      else (if prev then ' ' else c) :: collapseWsGo false cs
    else c :: collapseWsGo false cs

def collapseWs (l : List Char) : List Char := collapseWsGo false l

/-- `String.prototype.trim`: drop leading and trailing `isWs` characters. -/
def trimChars (l : List Char) : List Char :=
  ((l.dropWhile isWs).reverse.dropWhile isWs).reverse

/-- `tidy` of src/pages/api/extract.ts: the four steps in order. -/
def tidy (text : List Char) : List Char :=
  trimChars (collapseWs (collapseDots (dropWsBeforePunct text)))

/-- `cleanFollowUp` of src/pages/index.tsx lines 10-17: the identical
regex chain, written in the presentation layer. -/
def cleanFollowUp (text : List Char) : List Char :=
  trimChars (collapseWs (collapseDots (dropWsBeforePunct text)))

/-! ## Regex scanning infrastructure

A JavaScript `match`/`test` without `g` finds the leftmost position
at which the pattern matches, trying alternatives of an alternation
in written order at each position.  `scanStr f prev l` runs the
position matcher `f` (which receives the character before the
position, for `\b`) at every position of the text, left to right,
including the end-of-string position. -/

def scanStr {α : Type} (f : Option Char → List Char → Option α) :
    Option Char → List Char → Option α
  | prev, [] => f prev []
  | prev, c :: cs =>
    match f prev (c :: cs) with
    | some r => some r
    | none => scanStr f (some c) cs

def isWordOpt : Option Char → Bool
  | some c => isWordChar c
  | none => false

/-- `\b` holds between two (possibly absent) characters iff exactly
one of them is a word character. -/
def atBoundary (prev next : Option Char) : Bool :=
  isWordOpt prev != isWordOpt next

/-- Case-insensitive literal match: if `kw` (given lower-case) is an
`i`-flag prefix of the text, return the rest of the text. -/
def ciStrip : List Char → List Char → Option (List Char)
  | [], t => some t
  | _ :: _, [] => none
  | k :: ks, c :: cs => if charLower c = k then ciStrip ks cs else none

/-! ## The heuristic extractor `mockExtract`
(src/pages/api/extract.ts lines 85-121) -/

structure Task where
  title : List Char
  assignee : Option (List Char) := none
  due : Option (List Char) := none
  priority : Option (List Char) := none
deriving DecidableEq

structure ResponseBody where
  tasks : List Task
  followUp : List Char
deriving DecidableEq

/-- `text.split("\n")`: JavaScript split on the newline separator
(an empty string yields one empty part, a trailing newline a trailing
empty part). -/
def splitOnNl : List Char → List (List Char)
  | [] => [[]]
  | c :: cs =>
    if c = '\n' then [] :: splitOnNl cs
    else
      match splitOnNl cs with
      | g :: gs => (c :: g) :: gs
      | [] => [[c]]

/-- `/^[-*]\s*/.test(line)`: the pattern matches iff the first
character is `-` or `*` (the `\s*` part is optional). -/
def startsBullet : List Char → Bool
  | [] => false
  | c :: _ => c = '-' || c = '*'

/-- The trigger keywords of the action-line test, in the source's
alternation order. -/
def keywordList : List (List Char) :=
  ["action", "action:", "please", "will", "assign", "assigned",
   "due", "deliver", "todo"].map (fun s => s.toList)

/-- One position of `/\b(action|action:|please|will|assign|assigned|due|deliver|todo)\b/i`:
a leading boundary before the alternative and a trailing boundary
after its last matched character. -/
def kwAt (prev : Option Char) (l : List Char) : Option Unit :=
  keywordList.findSome? fun kw =>
    match ciStrip kw l with
    | some rest =>
      if atBoundary prev l.head? &&
         atBoundary ((l.take kw.length).getLast?) rest.head?
      then some () else none
    | none => none

def hasKeyword (l : List Char) : Bool := (scanStr kwAt none l).isSome

/-- Line 95: bullet start or trigger keyword makes an action line. -/
def isActionLine (l : List Char) : Bool := startsBullet l || hasKeyword l

/-- Line 96, `line.replace(/^[-*]\s*/g, "")`: with the `^` anchor the
global replace fires at most once, stripping one bullet character and
the following whitespace run. -/
def stripBullet (l : List Char) : List Char :=
  match l with
  | c :: cs => if c = '-' || c = '*' then cs.dropWhile isWs else l
  | [] => []

/-- The `\s+([A-Z][a-zA-Z]+)` tail of the first-tier assignee
pattern `/\b(?:assigned to|assign to|by)\s+([A-Z][a-zA-Z]+)/i`,
applied to the text after a connector.  With the `i` flag `[A-Z]`
and `[a-zA-Z]` both canonicalise to "ASCII letter", so the capture
is the greedy run of letters after the whitespace run provided it
has length at least two; `\s+` cannot backtrack usefully because
letters are not whitespace. -/
def assignTail (rest : List Char) : Option (List Char) :=
  if headIsWs rest then
    if 2 ≤ ((rest.dropWhile isWs).takeWhile isAsciiLetter).length then
      some ((rest.dropWhile isWs).takeWhile isAsciiLetter)
    else none
  else none

/-- One alternative of the first-tier pattern in full: the connector
matched case-insensitively, then the `\s+([A-Z][a-zA-Z]+)/i` tail.
`none` covers both a failed connector and a failed tail, and in both
cases the engine backtracks to the next alternative at the same
position. -/
def tryConnector (kw l : List Char) : Option (List Char) :=
  match ciStrip kw l with
  | some rest => assignTail rest
  | none => none

/-- One position of the first-tier assignee pattern: boundary, then
the three alternatives in the source's order. -/
def assignAt (prev : Option Char) (l : List Char) : Option (List Char) :=
  if atBoundary prev l.head? then
    match tryConnector "assigned to".toList l with
    | some name => some name
    | none =>
      match tryConnector "assign to".toList l with
      | some name => some name
      | none => tryConnector "by".toList l
  else none

def assignFirstTier (l : List Char) : Option (List Char) :=
  scanStr assignAt none l

/-- One position of the fallback pattern `/\b([A-Z][a-z]{2,})\b/`
(case sensitive): an upper-case letter after a boundary, a maximal
run of at least two lower-case letters, and a trailing boundary.
Backtracking the greedy `{2,}` cannot create the trailing `\b`
(a shorter run is followed by a lower-case letter), so the run is
maximal and the next character must not be a word character. -/
def fallbackAt (prev : Option Char) (l : List Char) : Option (List Char) :=
  match l with
  | c :: cs =>
    if atBoundary prev (some c) && isAsciiUpper c then
      let lows := cs.takeWhile isAsciiLower
      if 2 ≤ lows.length && !isWordOpt (cs.drop lows.length).head? then
        some (c :: lows)
      else none
    else none
  | [] => none

/-- Lines 98-100: the first regex's capture if it matches anywhere,
otherwise the fallback regex's capture, otherwise no assignee. -/
def assignMatch (l : List Char) : Option (List Char) :=
  match assignFirstTier l with
  | some name => some name
  | none => scanStr fallbackAt none l

/-- The character class `[A-Za-z0-9 ,.-]` of the due-date pattern. -/
def isDueClass (c : Char) : Bool :=
  isAsciiLetter c || isAsciiDigit c || c = ' ' || c = ',' || c = '.' || c = '-'

/-- The `\s+([A-Za-z0-9 ,.-]+)` tail of the due-date pattern after a
connector, with the greedy `\s+` backtracking: `r` is the text after
the connector; the quantifier first consumes the whole leading
whitespace run (length `k+1` at the first call), and on failure
retries with one character less, down to one, because the class
contains the space character but no other whitespace. -/
def dueTailTry : Nat → List Char → Option (List Char)
  | 0, _ => none
  | k + 1, r =>
    match (r.drop (k + 1)).head? with
    | some c =>
      if isDueClass c then some ((r.drop (k + 1)).takeWhile isDueClass)
      else dueTailTry k r
    | none => dueTailTry k r

/-- The connectors of `/\b(by|before|on|due)\s+([A-Za-z0-9 ,.-]+)/i`
in alternation order. -/
def dueConnectors : List (List Char) :=
  ["by", "before", "on", "due"].map (fun s => s.toList)

/-- One position of the due-date pattern (lines 103-104). -/
def dueAt (prev : Option Char) (l : List Char) : Option (List Char) :=
  if atBoundary prev l.head? then
    dueConnectors.findSome? fun kw =>
      match ciStrip kw l with
      | some rest => dueTailTry (rest.takeWhile isWs).length rest
      | none => none
  else none

def dueMatchCapture (l : List Char) : Option (List Char) :=
  scanStr dueAt none l

/-- Line 107: titles longer than 250 characters are cut to 247 plus
an ellipsis. -/
def mkTitle (cleaned : List Char) : List Char :=
  if 250 < cleaned.length then cleaned.take 247 ++ "...".toList else cleaned

/-- Lines 96-109: one action line becomes one task. -/
def lineToTask (line : List Char) : Task :=
  let cleaned := stripBullet line
  { title := mkTitle cleaned
    assignee := assignMatch cleaned
    due := dueMatchCapture cleaned
    priority := none }

/-- Lines 86-89: split, trim, drop empty lines (`filter(Boolean)`). -/
def trimmedLines (text : List Char) : List (List Char) :=
  ((splitOnNl text).map trimChars).filter (fun l => !l.isEmpty)

def actionLines (text : List Char) : List (List Char) :=
  (trimmedLines text).filter isActionLine

/-- Line 114: the synthetic fallback task. -/
def fallbackTask : Task :=
  { title := "Review meeting notes and propose next steps".toList }

def titleSep : List Char := "; ".toList

def joinTitles (titles : List (List Char)) : List Char :=
  List.intercalate titleSep titles

/-- Line 117: the fixed follow-up template around the joined titles. -/
def followUpTemplate (titles : List (List Char)) : List Char :=
  "Thanks everyone for the meeting. Next actions: ".toList ++
  joinTitles titles ++
  ". Please confirm owners and timelines.".toList

/-- `mockExtract` of src/pages/api/extract.ts lines 85-121. -/
def mockExtract (text : List Char) : ResponseBody :=
  let ts := (actionLines text).map lineToTask
  let tasks := if ts.isEmpty then [fallbackTask] else ts
  { tasks := tasks
    followUp := tidy (followUpTemplate (tasks.map Task.title)) }

/-! ## Adjacency predicates

`pairwiseOk bad l` says no two adjacent characters of `l` form a
`bad` pair; the three instances express "no whitespace immediately
before punctuation", "no two adjacent periods" and "no two adjacent
whitespace characters" — the shapes `tidy`'s three replacements
eliminate. -/

def pairwiseOk (bad : Char → Char → Bool) : List Char → Bool
  | a :: b :: l => !bad a b && pairwiseOk bad (b :: l)
  | _ => true

def badWsPunct (a b : Char) : Bool := isWs a && isPunct b
def badDotDot (a b : Char) : Bool := a = '.' && b = '.'
def badWsWs (a b : Char) : Bool := isWs a && isWs b

/-- Whether the second list starts with the first. -/
def leadsWith : List Char → List Char → Bool
  | [], _ => true
  | _ :: _, [] => false
  | a :: as, b :: bs => a = b && leadsWith as bs

/-- Substring containment (the contiguous-occurrence test). -/
def containsSeq (needle : List Char) : List Char → Bool
  | [] => leadsWith needle []
  | c :: cs => leadsWith needle (c :: cs) || containsSeq needle cs

/-- The closing sentence of the follow-up template. -/
def confirmTail : List Char := "Please confirm owners and timelines.".toList

/-! ## The model-backed extractor `callOpenAIExtract`
(src/pages/api/extract.ts lines 28-79)

The network envelope (key check, `fetch`, HTTP status handling,
response-JSON unwrapping, lines 29-59) is outside the shallow
embedding; what carries the claims is the handling of the extracted
`content` string, lines 63-78, embedded below.  `JSON.parse` is
embedded as a recursive-descent parser of JSON texts over
`List Char`.  Number literals are kept as their lexemes (the claims
never inspect numeric values, so IEEE-754 conversion is not
modelled); a `\u` escape denoting a lone surrogate is not
representable in `Char` and maps to the replacement of
`Char.ofNat`, a corner no claim touches. -/

inductive Json where
  | null : Json
  | bool (b : Bool) : Json
  | num (lexeme : List Char) : Json
  | str (s : List Char) : Json
  | arr (elems : List Json) : Json
  | obj (fields : List (List Char × Json)) : Json

/-- JSON insignificant whitespace. -/
def jsonWsChar (c : Char) : Bool :=
  c = ' ' || c = '\t' || c = '\n' || c = '\r'

def skipJsonWs (l : List Char) : List Char := l.dropWhile jsonWsChar

/-- The value of one hexadecimal digit (either case). -/
def hexVal (c : Char) : Option Nat :=
  if isAsciiDigit c then some (c.toNat - 48)
  else
    let low := charLower c
    if 'a' ≤ low && low ≤ 'f' then some (low.toNat - 87) else none

/-- The body of a JSON string after its opening quote: returns the
decoded characters and the text after the closing quote. -/
def parseStringBody : Nat → List Char → Option (List Char × List Char)
  | 0, _ => none
  | _ + 1, [] => none
  | fuel + 1, c :: cs =>
    if c = '"' then some ([], cs)
    else if c = '\\' then
      match cs with
      | [] => none
      | e :: cs2 =>
        let decoded : Option (Char × List Char) :=
          if e = '"' then some ('"', cs2)
          else if e = '\\' then some ('\\', cs2)
          else if e = '/' then some ('/', cs2)
          else if e = 'b' then some ('\x08', cs2)
          else if e = 'f' then some ('\x0c', cs2)
          else if e = 'n' then some ('\n', cs2)
          else if e = 'r' then some ('\r', cs2)
          else if e = 't' then some ('\t', cs2)
          else if e = 'u' then
            match cs2 with
            | h1 :: h2 :: h3 :: h4 :: cs3 =>
              match hexVal h1, hexVal h2, hexVal h3, hexVal h4 with
              | some a, some b, some c3, some d =>
                some (Char.ofNat (((a * 16 + b) * 16 + c3) * 16 + d), cs3)
              | _, _, _, _ => none
            | _ => none
          else none
        match decoded with
        | some (ch, cs3) =>
          match parseStringBody fuel cs3 with
          | some (s, r) => some (ch :: s, r)
          | none => none
        | none => none
    else if c.toNat < 0x20 then none
    else
      match parseStringBody fuel cs with
      | some (s, r) => some (c :: s, r)
      | none => none

/-- The digits-and-more tail of a number literal: an optional
fraction part then an optional exponent part, returned as (lexeme
continuation, rest). -/
def parseNumTail (l : List Char) : List Char × List Char :=
  let (frac, r1) :=
    match l with
    | '.' :: ds =>
      let digits := ds.takeWhile isAsciiDigit
      if digits.isEmpty then ([], l) else ('.' :: digits, ds.drop digits.length)
    | _ => ([], l)
  let (expo, r2) :=
    match r1 with
    | e :: rest =>
      if e = 'e' || e = 'E' then
        let (sign, r3) :=
          match rest with
          | s :: r4 => if s = '+' || s = '-' then ([s], r4) else ([], rest)
          | [] => ([], rest)
        let digits := r3.takeWhile isAsciiDigit
        if digits.isEmpty then ([], r1) else (e :: (sign ++ digits), r3.drop digits.length)
      else ([], r1)
    | [] => ([], r1)
  (frac ++ expo, r2)

/-- A JSON number literal (JSON grammar: no leading zeros, no bare
fraction), returned as its lexeme. -/
def parseNumberLexeme (l : List Char) : Option (List Char × List Char) :=
  let (neg, r1) :=
    match l with
    | '-' :: cs => (['-'], cs)
    | _ => ([], l)
  match r1 with
  | c :: cs =>
    if c = '0' then
      let (tail, r2) := parseNumTail cs
      some (neg ++ '0' :: tail, r2)
    else if isAsciiDigit c then
      let ds := cs.takeWhile isAsciiDigit
      let (tail, r2) := parseNumTail (cs.drop ds.length)
      some (neg ++ c :: ds ++ tail, r2)
    else none
  | [] => none

/-- Case-sensitive literal match, returning the rest of the text. -/
def exactStrip : List Char → List Char → Option (List Char)
  | [], t => some t
  | _ :: _, [] => none
  | k :: ks, c :: cs => if c = k then exactStrip ks cs else none

mutual

/-- A JSON value with leading whitespace allowed, returning the rest. -/
def parseJsonValue : Nat → List Char → Option (Json × List Char)
  | 0, _ => none
  | fuel + 1, l =>
    match skipJsonWs l with
    | [] => none
    | c :: cs =>
      if c = '"' then
        match parseStringBody (cs.length + 1) cs with
        | some (s, r) => some (Json.str s, r)
        | none => none
      else if c = '{' then parseJsonMembers fuel (skipJsonWs cs) true
      else if c = '[' then parseJsonElems fuel (skipJsonWs cs) true
      else if c = 't' then
        match exactStrip "rue".toList cs with
        | some r => some (Json.bool true, r)
        | none => none
      else if c = 'f' then
        match exactStrip "alse".toList cs with
        | some r => some (Json.bool false, r)
        | none => none
      else if c = 'n' then
        match exactStrip "ull".toList cs with
        | some r => some (Json.null, r)
        | none => none
      else
        match parseNumberLexeme (c :: cs) with
        | some (lex, r) => some (Json.num lex, r)
        | none => none

/-- Object members after `{` (whitespace already skipped); `first`
is true before the first member, so `}` closes an empty object. -/
def parseJsonMembers (fuel : Nat) (l : List Char) (first : Bool) :
    Option (Json × List Char) :=
  match fuel with
  | 0 => none
  | fuel + 1 =>
    match l with
    | '}' :: r => if first then some (Json.obj [], r) else none
    | '"' :: cs =>
      match parseStringBody (cs.length + 1) cs with
      | some (key, r1) =>
        match skipJsonWs r1 with
        | ':' :: r2 =>
          match parseJsonValue fuel r2 with
          | some (v, r3) =>
            match skipJsonWs r3 with
            | ',' :: r4 =>
              match parseJsonMembers fuel (skipJsonWs r4) false with
              | some (Json.obj fs, r5) => some (Json.obj ((key, v) :: fs), r5)
              | _ => none
            | '}' :: r4 => some (Json.obj [(key, v)], r4)
            | _ => none
          | none => none
        | _ => none
      | none => none
    | _ => none

/-- Array elements after `[` (whitespace already skipped). -/
def parseJsonElems (fuel : Nat) (l : List Char) (first : Bool) :
    Option (Json × List Char) :=
  match fuel with
  | 0 => none
  | fuel + 1 =>
    match l with
    | ']' :: r =>
      if first then some (Json.arr [], r) else none
    | _ =>
      match parseJsonValue fuel l with
      | some (v, r1) =>
        match skipJsonWs r1 with
        | ',' :: r2 =>
          match parseJsonElems fuel (skipJsonWs r2) false with
          | some (Json.arr vs, r3) => some (Json.arr (v :: vs), r3)
          | _ => none
        | ']' :: r2 => some (Json.arr [v], r2)
        | _ => none
      | none => none

end

/-- `JSON.parse`: one value, trailing whitespace only. -/
def jsonParse (l : List Char) : Option Json :=
  match parseJsonValue (2 * l.length + 4) l with
  | some (v, rest) => if (skipJsonWs rest).isEmpty then some v else none
  | none => none

/-- What the model path hands back on success: `parsed.tasks ?? []`
is whatever JSON value sat under `tasks` (the code performs no shape
validation), and the tidied `followUp` string. -/
structure ModelResult where
  tasks : Json
  followUp : List Char

/-- JavaScript member access `parsed.name`: a `TypeError` (the
`error` case) on `null`, the field for objects (`JSON.parse` keeps
the last duplicate of a key), `undefined` (`none`) otherwise. -/
def jsMember (parsed : Json) (name : List Char) : Except Unit (Option Json) :=
  match parsed with
  | Json.null => Except.error ()
  | Json.obj fields =>
    Except.ok ((fields.reverse.find? (fun f => f.fst == name)).map Prod.snd)
  | _ => Except.ok none

/-- `x ?? dflt`: the default replaces `undefined` and `null`. -/
def jsCoalesce (v : Option Json) (dflt : Json) : Json :=
  match v with
  | some Json.null => dflt
  | some w => w
  | none => dflt

/-- Lines 65 and 72: `{ tasks: parsed.tasks ?? [], followUp:
tidy(parsed.followUp ?? "") }`.  A `followUp` value that is neither
absent, null nor a string reaches `tidy`, whose `.replace` call then
raises a `TypeError` (the `error` case, caught by the enclosing
`try`). -/
def tryParseBody (parsed : Json) : Except Unit ModelResult :=
  match jsMember parsed "tasks".toList with
  | Except.error _ => Except.error ()
  | Except.ok tv =>
    match jsMember parsed "followUp".toList with
    | Except.error _ => Except.error ()
    | Except.ok fv =>
      match jsCoalesce fv (Json.str []) with
      | Json.str s =>
        Except.ok { tasks := jsCoalesce tv (Json.arr []), followUp := tidy s }
      | _ => Except.error ()

/-- Line 68, `content.match(/\{[\s\S]*\}/)`: the greedy pattern
matches from the first `{` to the last `}`, provided the latter
comes after the former; otherwise no position admits a match. -/
def jsonSubstring (l : List Char) : Option (List Char) :=
  match l.findIdx? (fun c => c = '{') with
  | none => none
  | some i =>
    match l.reverse.findIdx? (fun c => c = '}') with
    | none => none
    | some jr =>
      let j := l.length - 1 - jr
      if i < j then some ((l.drop i).take (j - i + 1)) else none

/-- The message of line 77. -/
def upstreamMsg : List Char :=
  "OpenAI response could not be parsed as JSON".toList

/-- Lines 67-77: the catch block — substring extraction, second
parse attempt, and the `UpstreamError` if both fail. -/
def openAIFallbackParse (content : List Char) : Except (List Char) ModelResult :=
  match jsonSubstring content with
  | some sub =>
    match jsonParse sub with
    | some parsed =>
      match tryParseBody parsed with
      | Except.ok r => Except.ok r
      | Except.error _ => Except.error upstreamMsg
    | none => Except.error upstreamMsg
  | none => Except.error upstreamMsg

/-- Lines 63-78 of `callOpenAIExtract`, from the extracted `content`
string on: direct parse attempt, then the catch block.  Both the
parse failure and the `TypeError` thrown while building the result
object land in the same catch. -/
def callOpenAIExtractOnContent (content : List Char) :
    Except (List Char) ModelResult :=
  match jsonParse content with
  | some parsed =>
    match tryParseBody parsed with
    | Except.ok r => Except.ok r
    | Except.error _ => openAIFallbackParse content
  | none => openAIFallbackParse content

/-- Whether a JSON value is an object. -/
def isObjJson : Json → Bool
  | Json.obj _ => true
  | _ => false

/-- Claim C9's hypothesis, read literally: neither the content nor
its first-`{`-to-last-`}` substring parses to a JSON object. -/
def noObjectParse (content : List Char) : Bool :=
  (match jsonParse content with
   | some v => !isObjJson v
   | none => true) &&
  (match jsonSubstring content with
   | some sub =>
     match jsonParse sub with
     | some v => !isObjJson v
     | none => true
   | none => true)

def isErrResult : Except (List Char) ModelResult → Bool
  | Except.error _ => true
  | Except.ok _ => false

/-! ## Character-class facts -/

theorem punct_not_ws (c : Char) (h : isPunct c = true) : isWs c = false := by
  simp only [isPunct, Bool.or_eq_true, decide_eq_true_eq] at h
  rcases h with ((((h | h) | h) | h) | h) | h <;> subst h <;> decide

theorem ws_not_punct (c : Char) (h : isWs c = true) : isPunct c = false := by
  cases hp : isPunct c with
  | false => rfl
  | true => rw [punct_not_ws c hp] at h; exact absurd h (by simp)

theorem ws_ne_dot (c : Char) (h : isWs c = true) : (c = '.') = False := by
  simp only [eq_iff_iff, iff_false]
  intro hc
  subst hc
  exact absurd h (by decide)

/-! ## Facts about `pairwiseOk` -/

theorem pw_tail {bad : Char → Char → Bool} {c : Char} {l : List Char}
    (h : pairwiseOk bad (c :: l) = true) : pairwiseOk bad l = true := by
  cases l with
  | nil => rfl
  | cons d ds =>
    simp only [pairwiseOk, Bool.and_eq_true] at h
    exact h.2

theorem pw_head {bad : Char → Char → Bool} {a b : Char} {l : List Char}
    (h : pairwiseOk bad (a :: l) = true) (hb : l.head? = some b) :
    bad a b = false := by
  cases l with
  | nil => exact absurd hb (by simp)
  | cons d ds =>
    simp only [List.head?_cons, Option.some.injEq] at hb
    subst hb
    simp only [pairwiseOk, Bool.and_eq_true, Bool.not_eq_true'] at h
    exact h.1

theorem pw_cons {bad : Char → Char → Bool} {c : Char} {l : List Char}
    (h : pairwiseOk bad l = true)
    (hh : ∀ b, l.head? = some b → bad c b = false) :
    pairwiseOk bad (c :: l) = true := by
  cases l with
  | nil => rfl
  | cons d ds =>
    simp only [pairwiseOk, Bool.and_eq_true, Bool.not_eq_true']
    exact ⟨hh d (by simp), h⟩

theorem pw_append_right {bad : Char → Char → Bool} {x y : List Char}
    (h : pairwiseOk bad (x ++ y) = true) : pairwiseOk bad y = true := by
  induction x with
  | nil => exact h
  | cons c x' ih => exact ih (pw_tail h)

theorem pw_append_left {bad : Char → Char → Bool} {x y : List Char}
    (h : pairwiseOk bad (x ++ y) = true) : pairwiseOk bad x = true := by
  induction x with
  | nil => rfl
  | cons c x' ih =>
    refine pw_cons (ih (pw_tail h)) ?_
    intro b hb
    refine pw_head h ?_
    cases x' with
    | nil => exact absurd hb (by simp)
    | cons d ds =>
      simp only [List.head?_cons, Option.some.injEq] at hb
      simp [hb]

theorem pw_infix {bad : Char → Char → Bool} {a m b : List Char}
    (h : pairwiseOk bad (a ++ m ++ b) = true) : pairwiseOk bad m = true :=
  pw_append_left (pw_append_right (by rwa [List.append_assoc] at h))

/-! ## `trimChars` structure -/

theorem trim_decomp (l : List Char) :
    l = l.takeWhile isWs ++
        (trimChars l ++ ((l.dropWhile isWs).reverse.takeWhile isWs).reverse) := by
  have h1 : l = l.takeWhile isWs ++ l.dropWhile isWs :=
    (List.takeWhile_append_dropWhile (p := isWs) (l := l)).symm
  have h2 : (l.dropWhile isWs).reverse =
      (l.dropWhile isWs).reverse.takeWhile isWs ++
      (l.dropWhile isWs).reverse.dropWhile isWs :=
    (List.takeWhile_append_dropWhile (p := isWs)
      (l := (l.dropWhile isWs).reverse)).symm
  have h3 : l.dropWhile isWs =
      trimChars l ++ ((l.dropWhile isWs).reverse.takeWhile isWs).reverse := by
    have := congrArg List.reverse h2
    rw [List.reverse_reverse, List.reverse_append] at this
    exact this
  calc l = l.takeWhile isWs ++ l.dropWhile isWs := h1
    _ = _ := by rw [← h3]

theorem pw_trim {bad : Char → Char → Bool} {l : List Char}
    (h : pairwiseOk bad l = true) : pairwiseOk bad (trimChars l) = true := by
  refine pw_infix (a := l.takeWhile isWs)
    (b := ((l.dropWhile isWs).reverse.takeWhile isWs).reverse) ?_
  rw [List.append_assoc, ← trim_decomp]
  exact h

/-! ## Step 1 establishes and respects "no whitespace before punctuation" -/

theorem s1_head_not_punct {cs : List Char}
    (hp : headIsPunct (cs.dropWhile isWs) = false) :
    ∀ x, (dropWsBeforePunct cs).head? = some x → isPunct x = false := by
  intro x hx
  cases cs with
  | nil => exact absurd hx (by simp [dropWsBeforePunct])
  | cons d ds =>
    cases hd : isWs d with
    | true =>
      rw [List.dropWhile_cons, if_pos hd] at hp
      rw [show dropWsBeforePunct (d :: ds) = d :: dropWsBeforePunct ds by
            simp [dropWsBeforePunct, hd, hp]] at hx
      simp only [List.head?_cons, Option.some.injEq] at hx
      exact hx ▸ ws_not_punct d hd
    | false =>
      rw [List.dropWhile_cons, if_neg (by simp [hd])] at hp
      simp only [headIsPunct] at hp
      rw [show dropWsBeforePunct (d :: ds) = d :: dropWsBeforePunct ds by
            simp [dropWsBeforePunct, hd]] at hx
      simp only [List.head?_cons, Option.some.injEq] at hx
      exact hx ▸ hp

theorem dropWsBeforePunct_pw (l : List Char) :
    pairwiseOk badWsPunct (dropWsBeforePunct l) = true := by
  induction l with
  | nil => rfl
  | cons c cs ih =>
    by_cases hc : (isWs c && headIsPunct (cs.dropWhile isWs)) = true
    · rw [show dropWsBeforePunct (c :: cs) = dropWsBeforePunct cs by
            simp [dropWsBeforePunct, hc]]
      exact ih
    · rw [show dropWsBeforePunct (c :: cs) = c :: dropWsBeforePunct cs by
            simp only [dropWsBeforePunct, if_neg hc]]
      refine pw_cons ih ?_
      intro b hb
      simp only [badWsPunct]
      cases hw : isWs c with
      | false => simp
      | true =>
        simp only [hw, Bool.true_and]
        have hp : headIsPunct (cs.dropWhile isWs) = false := by
          cases hpp : headIsPunct (cs.dropWhile isWs) with
          | false => rfl
          | true => exact absurd (by simp [hw, hpp]) hc
        exact s1_head_not_punct hp b hb

theorem s1_no_match : ∀ (cs : List Char) (c : Char),
    pairwiseOk badWsPunct (c :: cs) = true → isWs c = true →
    headIsPunct (cs.dropWhile isWs) = false := by
  intro cs
  induction cs with
  | nil => intro c _ _; rfl
  | cons d ds ih =>
    intro c h hc
    cases hd : isWs d with
    | true =>
      rw [List.dropWhile_cons, if_pos hd]
      exact ih d (pw_tail h) hd
    | false =>
      rw [List.dropWhile_cons, if_neg (by simp [hd])]
      simp only [headIsPunct]
      have := pw_head h (b := d) (by simp)
      simp only [badWsPunct, hc, Bool.true_and] at this
      exact this

theorem dropWsBeforePunct_id {l : List Char}
    (h : pairwiseOk badWsPunct l = true) : dropWsBeforePunct l = l := by
  induction l with
  | nil => rfl
  | cons c cs ih =>
    have hcond : (isWs c && headIsPunct (cs.dropWhile isWs)) = false := by
      cases hw : isWs c with
      | false => simp
      | true => simp [s1_no_match cs c h hw]
    simp only [dropWsBeforePunct, hcond, Bool.false_eq_true, if_false]
    rw [ih (pw_tail h)]

/-! ## Step 2 establishes "no double period" and respects step 1's shape -/

theorem collapseDots_head (l : List Char) :
    (collapseDots l).head? = l.head? ∨
    ((collapseDots l).head? = some '.' ∧ l.head? = some '.') := by
  induction l with
  | nil => left; rfl
  | cons c cs ih =>
    by_cases hc : (c = '.' && headIs '.' cs) = true
    · rw [show collapseDots (c :: cs) = collapseDots cs by
            simp [collapseDots, hc]]
      simp only [Bool.and_eq_true, decide_eq_true_eq] at hc
      have hcs : cs.head? = some '.' := by
        cases cs with
        | nil => exact absurd hc.2 (by simp [headIs])
        | cons d ds =>
          simp only [headIs, decide_eq_true_eq] at hc
          simp [hc.2]
      rcases ih with ih | ih
      · right; rw [ih, hcs]; exact ⟨rfl, by simp [hc.1]⟩
      · right; exact ⟨ih.1, by simp [hc.1]⟩
    · rw [show collapseDots (c :: cs) = c :: collapseDots cs by
            simp only [collapseDots, if_neg hc]]
      left; rfl

theorem collapseDots_pw (l : List Char) :
    pairwiseOk badDotDot (collapseDots l) = true := by
  induction l with
  | nil => rfl
  | cons c cs ih =>
    by_cases hc : (c = '.' && headIs '.' cs) = true
    · rw [show collapseDots (c :: cs) = collapseDots cs by
            simp [collapseDots, hc]]
      exact ih
    · rw [show collapseDots (c :: cs) = c :: collapseDots cs by
            simp only [collapseDots, if_neg hc]]
      refine pw_cons ih ?_
      intro b hb
      simp only [badDotDot]
      by_cases hdot : c = '.'
      · subst hdot
        have hcs : headIs '.' cs = false := by
          cases hh : headIs '.' cs with
          | false => rfl
          | true => exact absurd (by simp [hh]) hc
        have hbne : b ≠ '.' := by
          rcases collapseDots_head cs with hh | hh
          · intro hbe
            subst hbe
            rw [hb] at hh
            cases cs with
            | nil => exact absurd hh.symm (by simp)
            | cons d ds =>
              simp only [List.head?_cons, Option.some.injEq] at hh
              rw [← hh] at hcs
              simp [headIs] at hcs
          · rw [hb] at hh
            cases cs with
            | nil => exact absurd hh.2 (by simp)
            | cons d ds =>
              simp only [List.head?_cons, Option.some.injEq] at hh
              rw [← hh.2] at hcs
              simp [headIs] at hcs
        simp [hbne]
      · simp [hdot]

theorem collapseDots_pres_pw1 {l : List Char}
    (h : pairwiseOk badWsPunct l = true) :
    pairwiseOk badWsPunct (collapseDots l) = true := by
  induction l with
  | nil => rfl
  | cons c cs ih =>
    by_cases hc : (c = '.' && headIs '.' cs) = true
    · rw [show collapseDots (c :: cs) = collapseDots cs by
            simp [collapseDots, hc]]
      exact ih (pw_tail h)
    · rw [show collapseDots (c :: cs) = c :: collapseDots cs by
            simp only [collapseDots, if_neg hc]]
      refine pw_cons (ih (pw_tail h)) ?_
      intro b hb
      simp only [badWsPunct]
      cases hw : isWs c with
      | false => simp
      | true =>
        simp only [hw, Bool.true_and]
        rcases collapseDots_head cs with hh | hh
        · rw [hb] at hh
          have := pw_head h hh.symm
          simp only [badWsPunct, hw, Bool.true_and] at this
          exact this
        · rw [hb] at hh
          have := pw_head h hh.2
          simp only [badWsPunct, hw, Bool.true_and] at this
          rw [show b = '.' from Option.some.inj hh.1]
          exact this

theorem collapseDots_id {l : List Char}
    (h : pairwiseOk badDotDot l = true) : collapseDots l = l := by
  induction l with
  | nil => rfl
  | cons c cs ih =>
    have hcond : (c = '.' && headIs '.' cs) = false := by
      by_cases hdot : c = '.'
      · subst hdot
        cases cs with
        | nil => simp [headIs]
        | cons d ds =>
          have := pw_head h (b := d) (by simp)
          simp only [badDotDot, decide_eq_true_eq] at this
          simp only [headIs]
          have hd : (d = '.') = False := by
            by_cases hde : d = '.'
            · subst hde; simp at this
            · simp [hde]
          simp [hd]
      · simp [hdot]
    simp only [collapseDots, hcond, Bool.false_eq_true, if_false]
    rw [ih (pw_tail h)]

/-! ## Step 3 establishes "no double whitespace" and respects the others -/

theorem s3_head_nws {l : List Char} (h : headIsWs l = false) (p : Bool) :
    (collapseWsGo p l).head? = l.head? := by
  cases l with
  | nil => rfl
  | cons c cs =>
    simp only [headIsWs] at h
    simp [collapseWsGo, h]

theorem s3_head_ws : ∀ (l : List Char), headIsWs l = true → ∀ (p : Bool),
    ∃ x, (collapseWsGo p l).head? = some x ∧ isWs x = true := by
  intro l
  induction l with
  | nil => intro h; exact absurd h (by simp [headIsWs])
  | cons c cs ih =>
    intro h p
    simp only [headIsWs] at h
    cases hcs : headIsWs cs with
    | true =>
      rw [show collapseWsGo p (c :: cs) = collapseWsGo true cs by
            simp [collapseWsGo, h, hcs]]
      exact ih (by
        cases cs with
        | nil => exact absurd hcs (by simp [headIsWs])
        | cons d ds => exact hcs) true
    | false =>
      rw [show collapseWsGo p (c :: cs) =
            (if p then ' ' else c) :: collapseWsGo false cs by
            simp [collapseWsGo, h, hcs]]
      refine ⟨if p then ' ' else c, by simp, ?_⟩
      cases p with
      | true => rw [if_pos rfl]; decide
      | false => rw [if_neg (by decide)]; simpa using h

theorem collapseWsGo_pw3 : ∀ (l : List Char) (p : Bool),
    pairwiseOk badWsWs (collapseWsGo p l) = true := by
  intro l
  induction l with
  | nil => intro p; rfl
  | cons c cs ih =>
    intro p
    cases hc : isWs c with
    | true =>
      cases hcs : headIsWs cs with
      | true =>
        rw [show collapseWsGo p (c :: cs) = collapseWsGo true cs by
              simp [collapseWsGo, hc, hcs]]
        exact ih true
      | false =>
        rw [show collapseWsGo p (c :: cs) =
              (if p then ' ' else c) :: collapseWsGo false cs by
              simp [collapseWsGo, hc, hcs]]
        refine pw_cons (ih false) ?_
        intro b hb
        rw [s3_head_nws hcs false] at hb
        simp only [badWsWs]
        have hbw : isWs b = false := by
          cases cs with
          | nil => exact absurd hb (by simp)
          | cons d ds =>
            simp only [List.head?_cons, Option.some.injEq] at hb
            simp only [headIsWs] at hcs
            exact hb ▸ hcs
        simp [hbw]
    | false =>
      rw [show collapseWsGo p (c :: cs) = c :: collapseWsGo false cs by
            simp [collapseWsGo, hc]]
      refine pw_cons (ih false) ?_
      intro b _
      simp [badWsWs, hc]

theorem collapseWsGo_pres_pw1 : ∀ (l : List Char) (p : Bool),
    pairwiseOk badWsPunct l = true →
    pairwiseOk badWsPunct (collapseWsGo p l) = true := by
  intro l
  induction l with
  | nil => intro p _; rfl
  | cons c cs ih =>
    intro p h
    cases hc : isWs c with
    | true =>
      cases hcs : headIsWs cs with
      | true =>
        rw [show collapseWsGo p (c :: cs) = collapseWsGo true cs by
              simp [collapseWsGo, hc, hcs]]
        exact ih true (pw_tail h)
      | false =>
        rw [show collapseWsGo p (c :: cs) =
              (if p then ' ' else c) :: collapseWsGo false cs by
              simp [collapseWsGo, hc, hcs]]
        refine pw_cons (ih false (pw_tail h)) ?_
        intro b hb
        rw [s3_head_nws hcs false] at hb
        have hpb : isPunct b = false := by
          have := pw_head h hb
          simp only [badWsPunct, hc, Bool.true_and] at this
          exact this
        simp [badWsPunct, hpb]
    | false =>
      rw [show collapseWsGo p (c :: cs) = c :: collapseWsGo false cs by
            simp [collapseWsGo, hc]]
      refine pw_cons (ih false (pw_tail h)) ?_
      intro b _
      simp [badWsPunct, hc]

theorem collapseWsGo_pres_pw2 : ∀ (l : List Char) (p : Bool),
    pairwiseOk badDotDot l = true →
    pairwiseOk badDotDot (collapseWsGo p l) = true := by
  intro l
  induction l with
  | nil => intro p _; rfl
  | cons c cs ih =>
    intro p h
    cases hc : isWs c with
    | true =>
      cases hcs : headIsWs cs with
      | true =>
        rw [show collapseWsGo p (c :: cs) = collapseWsGo true cs by
              simp [collapseWsGo, hc, hcs]]
        exact ih true (pw_tail h)
      | false =>
        rw [show collapseWsGo p (c :: cs) =
              (if p then ' ' else c) :: collapseWsGo false cs by
              simp [collapseWsGo, hc, hcs]]
        refine pw_cons (ih false (pw_tail h)) ?_
        intro b _
        have hcd : ((if p then ' ' else c) = '.') = False := by
          cases p with
          | true =>
            rw [if_pos rfl]
            simp only [eq_iff_iff, iff_false]
            decide
          | false =>
            rw [if_neg (by decide)]
            exact ws_ne_dot c hc
        simp [badDotDot, hcd]
    | false =>
      rw [show collapseWsGo p (c :: cs) = c :: collapseWsGo false cs by
            simp [collapseWsGo, hc]]
      refine pw_cons (ih false (pw_tail h)) ?_
      intro b hb
      by_cases hcd : c = '.'
      · subst hcd
        have hbd : (b = '.') = False := by
          cases hcs : headIsWs cs with
          | false =>
            rw [s3_head_nws hcs false] at hb
            have := pw_head h hb
            simp only [badDotDot, decide_eq_true_eq] at this
            simp only [eq_iff_iff, iff_false]
            intro hbe
            rw [hbe] at this
            simp at this
          | true =>
            rcases s3_head_ws cs hcs false with ⟨x, hx, hxw⟩
            rw [hb] at hx
            have hbx := Option.some.inj hx
            simp only [eq_iff_iff, iff_false]
            intro hbe
            rw [← hbx, hbe] at hxw
            exact absurd hxw (by decide)
        simp [badDotDot, hbd]
      · simp [badDotDot, hcd]

theorem collapseWs_id {l : List Char}
    (h : pairwiseOk badWsWs l = true) : collapseWsGo false l = l := by
  induction l with
  | nil => rfl
  | cons c cs ih =>
    cases hc : isWs c with
    | true =>
      have hcs : headIsWs cs = false := by
        cases cs with
        | nil => rfl
        | cons d ds =>
          simp only [headIsWs]
          have := pw_head h (b := d) (by simp)
          simp only [badWsWs, hc, Bool.true_and] at this
          exact this
      rw [show collapseWsGo false (c :: cs) = c :: collapseWsGo false cs by
            simp [collapseWsGo, hc, hcs]]
      rw [ih (pw_tail h)]
    | false =>
      rw [show collapseWsGo false (c :: cs) = c :: collapseWsGo false cs by
            simp [collapseWsGo, hc]]
      rw [ih (pw_tail h)]

/-! ## `trimChars` is idempotent -/

theorem head_dropWhile_not {p : Char → Bool} : ∀ {l : List Char} {x : Char},
    (l.dropWhile p).head? = some x → p x = false := by
  intro l
  induction l with
  | nil => intro x hx; exact absurd hx (by simp)
  | cons c cs ih =>
    intro x hx
    cases hc : p c with
    | true =>
      rw [List.dropWhile_cons, if_pos hc] at hx
      exact ih hx
    | false =>
      rw [List.dropWhile_cons, if_neg (by simp [hc])] at hx
      simp only [List.head?_cons, Option.some.injEq] at hx
      exact hx ▸ hc

theorem dropWhile_eq_self_of_head {p : Char → Bool} {l : List Char}
    (h : ∀ x, l.head? = some x → p x = false) : l.dropWhile p = l := by
  cases l with
  | nil => rfl
  | cons c cs =>
    rw [List.dropWhile_cons, if_neg (by simp [h c rfl])]

theorem trim_eq_self {y : List Char}
    (h1 : ∀ c, y.head? = some c → isWs c = false)
    (h2 : ∀ c, y.reverse.head? = some c → isWs c = false) :
    trimChars y = y := by
  unfold trimChars
  rw [dropWhile_eq_self_of_head h1, dropWhile_eq_self_of_head h2,
    List.reverse_reverse]

theorem trim_trim (m : List Char) :
    trimChars (trimChars m) = trimChars m := by
  have hrev : (trimChars m).reverse =
      (m.dropWhile isWs).reverse.dropWhile isWs := by
    unfold trimChars
    rw [List.reverse_reverse]
  have hsplit : m.dropWhile isWs =
      trimChars m ++ ((m.dropWhile isWs).reverse.takeWhile isWs).reverse := by
    have h2 : (m.dropWhile isWs).reverse =
        (m.dropWhile isWs).reverse.takeWhile isWs ++
        (m.dropWhile isWs).reverse.dropWhile isWs :=
      (List.takeWhile_append_dropWhile (p := isWs)
        (l := (m.dropWhile isWs).reverse)).symm
    have h3 := congrArg List.reverse h2
    rw [List.reverse_reverse, List.reverse_append] at h3
    exact h3
  refine trim_eq_self ?_ ?_
  · intro x hx
    have hhd : (m.dropWhile isWs).head? = some x := by
      rw [hsplit]
      cases htm : trimChars m with
      | nil => rw [htm] at hx; exact absurd hx (by simp)
      | cons c cs =>
        rw [htm] at hx
        simp only [List.head?_cons, Option.some.injEq] at hx
        simp [hx]
    exact head_dropWhile_not hhd
  · intro x hx
    rw [hrev] at hx
    exact head_dropWhile_not hx

/-! ## `tidy` is idempotent -/

theorem tidy_pw1 (l : List Char) : pairwiseOk badWsPunct (tidy l) = true :=
  pw_trim (collapseWsGo_pres_pw1 _ false
    (collapseDots_pres_pw1 (dropWsBeforePunct_pw l)))

theorem tidy_pw2 (l : List Char) : pairwiseOk badDotDot (tidy l) = true :=
  pw_trim (collapseWsGo_pres_pw2 _ false (collapseDots_pw _))

theorem tidy_pw3 (l : List Char) : pairwiseOk badWsWs (tidy l) = true :=
  pw_trim (collapseWsGo_pw3 _ false)

theorem tidy_tidy (l : List Char) : tidy (tidy l) = tidy l := by
  show trimChars (collapseWs (collapseDots (dropWsBeforePunct (tidy l)))) = tidy l
  rw [dropWsBeforePunct_id (tidy_pw1 l), collapseDots_id (tidy_pw2 l)]
  show trimChars (collapseWsGo false (tidy l)) = tidy l
  rw [collapseWs_id (tidy_pw3 l)]
  show trimChars (trimChars (collapseWs (collapseDots (dropWsBeforePunct l)))) = tidy l
  rw [trim_trim]
  rfl

/-! ## The cleaning steps distribute over a clean suffix -/

theorem dropWhile_ws_append {v : List Char} (hv : v.dropWhile isWs = v) :
    ∀ u, List.dropWhile isWs (u ++ v) = u.dropWhile isWs ++ v := by
  intro u
  induction u with
  | nil => simpa using hv
  | cons c u' ih =>
    cases hc : isWs c with
    | true =>
      rw [List.cons_append, List.dropWhile_cons, if_pos hc, ih,
        List.dropWhile_cons, if_pos hc]
    | false =>
      rw [List.cons_append, List.dropWhile_cons, if_neg (by simp [hc]),
        List.dropWhile_cons, if_neg (by simp [hc]), List.cons_append]

theorem dropWsBeforePunct_append {b : List Char}
    (hbw : headIsWs b = false) (hbp : headIsPunct b = false) :
    ∀ a, dropWsBeforePunct (a ++ b) =
      dropWsBeforePunct a ++ dropWsBeforePunct b := by
  have hvb : b.dropWhile isWs = b := by
    cases b with
    | nil => rfl
    | cons x xs =>
      simp only [headIsWs] at hbw
      rw [List.dropWhile_cons, if_neg (by simp [hbw])]
  intro a
  induction a with
  | nil => rfl
  | cons c a' ih =>
    have hcond : headIsPunct ((a' ++ b).dropWhile isWs) =
        headIsPunct (a'.dropWhile isWs) := by
      rw [dropWhile_ws_append hvb a']
      cases hda : a'.dropWhile isWs with
      | nil =>
        cases b with
        | nil => rfl
        | cons x xs =>
          simp only [List.nil_append, headIsPunct] at *
          exact hbp
      | cons d ds => rfl
    by_cases hc : (isWs c && headIsPunct (a'.dropWhile isWs)) = true
    · rw [show dropWsBeforePunct ((c :: a') ++ b) = dropWsBeforePunct (a' ++ b) by
            simp only [List.cons_append, dropWsBeforePunct, List.append_eq,
              hcond, hc, if_pos]]
      rw [show dropWsBeforePunct (c :: a') = dropWsBeforePunct a' by
            simp only [dropWsBeforePunct, hc, if_pos]]
      exact ih
    · rw [show dropWsBeforePunct ((c :: a') ++ b) =
            c :: dropWsBeforePunct (a' ++ b) by
            simp only [List.cons_append, dropWsBeforePunct, List.append_eq,
              hcond, if_neg hc]]
      rw [show dropWsBeforePunct (c :: a') = c :: dropWsBeforePunct a' by
            simp only [dropWsBeforePunct, if_neg hc]]
      rw [ih, List.cons_append]

theorem collapseDots_append {b : List Char} (hb : headIs '.' b = false) :
    ∀ a, collapseDots (a ++ b) = collapseDots a ++ collapseDots b := by
  intro a
  induction a with
  | nil => rfl
  | cons c a' ih =>
    have hcond : headIs '.' (a' ++ b) = headIs '.' a' := by
      cases a' with
      | nil => simpa using hb
      | cons d ds => rfl
    by_cases hc : (c = '.' && headIs '.' a') = true
    · rw [show collapseDots ((c :: a') ++ b) = collapseDots (a' ++ b) by
            simp only [List.cons_append, collapseDots, List.append_eq,
              hcond, hc, if_pos]]
      rw [show collapseDots (c :: a') = collapseDots a' by
            simp only [collapseDots, hc, if_pos]]
      exact ih
    · rw [show collapseDots ((c :: a') ++ b) = c :: collapseDots (a' ++ b) by
            simp only [List.cons_append, collapseDots, List.append_eq,
              hcond, if_neg hc]]
      rw [show collapseDots (c :: a') = c :: collapseDots a' by
            simp only [collapseDots, if_neg hc]]
      rw [ih, List.cons_append]

theorem collapseWsGo_append {b : List Char} (hb : headIsWs b = false) :
    ∀ a (p : Bool), collapseWsGo p (a ++ b) =
      collapseWsGo p a ++ collapseWsGo false b := by
  intro a
  induction a with
  | nil =>
    intro p
    cases b with
    | nil => rfl
    | cons d ds =>
      simp only [headIsWs] at hb
      simp [collapseWsGo, hb]
  | cons c a' ih =>
    intro p
    cases hc : isWs c with
    | true =>
      have hcond : headIsWs (a' ++ b) = headIsWs a' ∨ a' = [] := by
        cases a' with
        | nil => right; rfl
        | cons d ds => left; rfl
      rcases hcond with hcond | hnil
      · cases hws : headIsWs a' with
        | true =>
          rw [show collapseWsGo p ((c :: a') ++ b) = collapseWsGo true (a' ++ b) by
                simp [collapseWsGo, hc, hcond, hws]]
          rw [show collapseWsGo p (c :: a') = collapseWsGo true a' by
                simp [collapseWsGo, hc, hws]]
          exact ih true
        | false =>
          rw [show collapseWsGo p ((c :: a') ++ b) =
                (if p then ' ' else c) :: collapseWsGo false (a' ++ b) by
                simp [collapseWsGo, hc, hcond, hws]]
          rw [show collapseWsGo p (c :: a') =
                (if p then ' ' else c) :: collapseWsGo false a' by
                simp [collapseWsGo, hc, hws]]
          rw [ih false, List.cons_append]
      · subst hnil
        rw [show ((c :: ([] : List Char)) ++ b) = c :: b from rfl]
        rw [show collapseWsGo p (c :: b) =
              (if p then ' ' else c) :: collapseWsGo false b by
              simp [collapseWsGo, hc, hb]]
        rw [show collapseWsGo p [c] = [if p then ' ' else c] by
              simp [collapseWsGo, hc, headIsWs]]
        rfl
    | false =>
      rw [show collapseWsGo p ((c :: a') ++ b) =
            c :: collapseWsGo false (a' ++ b) by
            simp [collapseWsGo, hc]]
      rw [show collapseWsGo p (c :: a') = c :: collapseWsGo false a' by
            simp [collapseWsGo, hc]]
      rw [ih false, List.cons_append]

/-- Trimming `u ++ v` keeps a suffix `v` whose ends are not
whitespace: only `u`'s leading whitespace is dropped. -/
theorem trim_append_keep {v : List Char} (hv : v.dropWhile isWs = v)
    (hrv : headIsWs v.reverse = false) (hne : v ≠ []) :
    ∀ u, trimChars (u ++ v) = u.dropWhile isWs ++ v := by
  intro u
  unfold trimChars
  rw [dropWhile_ws_append hv u, List.reverse_append]
  obtain ⟨c, rv', hc⟩ : ∃ c rv', v.reverse = c :: rv' := by
    cases hr : v.reverse with
    | nil => exact absurd (by simpa using congrArg List.reverse hr) hne
    | cons c rv' => exact ⟨c, rv', rfl⟩
  rw [hc] at hrv
  simp only [headIsWs] at hrv
  rw [hc, List.cons_append, List.dropWhile_cons, if_neg (by simp [hrv]),
    ← List.cons_append, ← hc, ← List.reverse_append, List.reverse_reverse]

/-- The closing sentence survives `tidy` at the end of any text:
its head is a letter and it ends in a period, so no cleaning step
reaches across the boundary. -/
theorem tidy_append_confirmTail (a : List Char) :
    tidy (a ++ confirmTail) =
      (collapseWs (collapseDots (dropWsBeforePunct a))).dropWhile isWs ++
        confirmTail := by
  unfold tidy
  rw [dropWsBeforePunct_append (by decide) (by decide) a,
    show dropWsBeforePunct confirmTail = confirmTail by decide]
  rw [collapseDots_append (by decide) (dropWsBeforePunct a),
    show collapseDots confirmTail = confirmTail by decide]
  show trimChars (collapseWsGo false (collapseDots (dropWsBeforePunct a) ++ confirmTail)) = _
  rw [collapseWsGo_append (by decide) (collapseDots (dropWsBeforePunct a)) false,
    show collapseWsGo false confirmTail = confirmTail by decide]
  exact trim_append_keep (by decide) (by decide) (by decide) _

/-- The follow-up template regrouped around its constant tail. -/
theorem followUpTemplate_decomp (titles : List (List Char)) :
    followUpTemplate titles =
      ("Thanks everyone for the meeting. Next actions: ".toList ++
        joinTitles titles ++ ('.' :: ' ' :: [])) ++ confirmTail := by
  unfold followUpTemplate
  rw [show ". Please confirm owners and timelines.".toList =
        ('.' :: ' ' :: []) ++ confirmTail from rfl]
  simp [List.append_assoc]

/-- Every produced follow-up ends with the confirm sentence. -/
theorem followUp_ends (titles : List (List Char)) :
    ∃ z, tidy (followUpTemplate titles) = z ++ confirmTail := by
  rw [followUpTemplate_decomp, tidy_append_confirmTail]
  exact ⟨_, rfl⟩

/-! ## Containment facts -/

theorem leadsWith_append_self : ∀ (b c : List Char),
    leadsWith b (b ++ c) = true := by
  intro b c
  induction b with
  | nil => rfl
  | cons x xs ih => simpa [leadsWith] using ih

theorem containsSeq_append_mid : ∀ (a b c : List Char),
    containsSeq b (a ++ (b ++ c)) = true := by
  intro a b c
  induction a with
  | nil =>
    show containsSeq b (b ++ c) = true
    cases hbc : b ++ c with
    | nil =>
      have hb : b = [] := by
        cases b with
        | nil => rfl
        | cons x xs => exact absurd hbc (by simp)
      subst hb
      rfl
    | cons x xs =>
      show (leadsWith b (x :: xs) || containsSeq b xs) = true
      rw [← hbc, leadsWith_append_self]
      rfl
  | cons d a' ih =>
    show (leadsWith b (d :: (a' ++ (b ++ c))) || containsSeq b (a' ++ (b ++ c))) = true
    rw [ih]
    simp

/-! ## Structure of `mockExtract`'s output -/

theorem mockExtract_tasks_eq (text : List Char) :
    (mockExtract text).tasks =
      (if ((actionLines text).map lineToTask).isEmpty then [fallbackTask]
       else (actionLines text).map lineToTask) := rfl

theorem mockExtract_followUp_eq (text : List Char) :
    (mockExtract text).followUp =
      tidy (followUpTemplate ((mockExtract text).tasks.map Task.title)) := rfl

theorem mockExtract_tasks_ne (text : List Char) :
    (mockExtract text).tasks ≠ [] := by
  rw [mockExtract_tasks_eq]
  by_cases h : ((actionLines text).map lineToTask).isEmpty = true
  · rw [if_pos h]; simp
  · rw [if_neg h]
    intro hnil
    rw [hnil] at h
    exact h rfl

theorem mockExtract_followUp_ends (text : List Char) :
    ∃ z, (mockExtract text).followUp = z ++ confirmTail := by
  rw [mockExtract_followUp_eq]
  exact followUp_ends _

theorem mkTitle_ne_nil {cleaned : List Char} (h : cleaned ≠ []) :
    mkTitle cleaned ≠ [] := by
  unfold mkTitle
  by_cases hl : 250 < cleaned.length
  · rw [if_pos hl]; simp
  · rw [if_neg hl]; exact h

/-! ## Shape of the first-tier assignee capture -/

theorem takeWhile_all (p : Char → Bool) : ∀ (l : List Char),
    (l.takeWhile p).all p = true := by
  intro l
  induction l with
  | nil => rfl
  | cons c cs ih =>
    cases hc : p c with
    | true => rw [List.takeWhile_cons, if_pos hc]; simp [hc, ih]
    | false => rw [List.takeWhile_cons, if_neg (by simp [hc])]; rfl

theorem scanStr_some {α : Type} {f : Option Char → List Char → Option α} :
    ∀ (l : List Char) (prev : Option Char) (r : α),
    scanStr f prev l = some r → ∃ p' l', f p' l' = some r := by
  intro l
  induction l with
  | nil => intro prev r h; exact ⟨prev, [], h⟩
  | cons c cs ih =>
    intro prev r h
    cases hf : f prev (c :: cs) with
    | some r' =>
      rw [show scanStr f prev (c :: cs) = some r' by rw [scanStr, hf]] at h
      exact ⟨prev, c :: cs, by rw [hf, Option.some.inj h]⟩
    | none =>
      rw [show scanStr f prev (c :: cs) = scanStr f (some c) cs by
            rw [scanStr, hf]] at h
      exact ih (some c) r h

theorem assignTail_shape {rest name : List Char}
    (h : assignTail rest = some name) :
    2 ≤ name.length ∧ name.all isAsciiLetter = true := by
  unfold assignTail at h
  by_cases hw : headIsWs rest = true
  · rw [if_pos hw] at h
    by_cases hn : 2 ≤ ((rest.dropWhile isWs).takeWhile isAsciiLetter).length
    · rw [if_pos hn] at h
      have hname := Option.some.inj h
      refine ⟨hname ▸ hn, hname ▸ takeWhile_all isAsciiLetter _⟩
    · rw [if_neg hn] at h
      exact absurd h (by simp)
  · rw [if_neg hw] at h
    exact absurd h (by simp)

theorem tryConnector_shape {kw l name : List Char}
    (h : tryConnector kw l = some name) :
    2 ≤ name.length ∧ name.all isAsciiLetter = true := by
  unfold tryConnector at h
  cases hc : ciStrip kw l with
  | none => rw [hc] at h; exact absurd h (by simp)
  | some rest =>
    rw [hc] at h
    exact assignTail_shape h

theorem assignAt_shape {prev : Option Char} {l name : List Char}
    (h : assignAt prev l = some name) :
    2 ≤ name.length ∧ name.all isAsciiLetter = true := by
  unfold assignAt at h
  by_cases hb : atBoundary prev l.head? = true
  · rw [if_pos hb] at h
    cases h1 : tryConnector "assigned to".toList l with
    | some n1 =>
      rw [h1] at h
      exact (Option.some.inj h) ▸ tryConnector_shape h1
    | none =>
      rw [h1] at h
      cases h2 : tryConnector "assign to".toList l with
      | some n2 =>
        rw [h2] at h
        exact (Option.some.inj h) ▸ tryConnector_shape h2
      | none =>
        rw [h2] at h
        exact tryConnector_shape h
  · rw [if_neg hb] at h
    exact absurd h (by simp)

/-! # The claims -/

/-- Claim C1 (amended): the heuristic extractor's `tasks` sequence is
never empty — the synthetic fallback Task is substituted when no
action line is found.  (The model-backed extractor, by contrast,
performs no such substitution; see the counterexample.) -/
theorem claim1_heuristic_tasks_nonempty : ∀ (text : List Char),
    (mockExtract text).tasks ≠ [] :=
  mockExtract_tasks_ne

/-- Claim C1 counterexample: the model-backed extractor returns an
empty `tasks` sequence when the generation service answers
`{"tasks":[],"followUp":"ok"}` — no fallback Task is substituted, so
the claim's "holds for both extractors" is false. -/
theorem claim1_model_empty_tasks_cex :
    callOpenAIExtractOnContent "\x7b\"tasks\":[],\"followUp\":\"ok\"\x7d".toList =
      Except.ok { tasks := Json.arr [], followUp := "ok".toList } := rfl

/-- Claim C2 (amended): every Task title produced by `mockExtract` is
non-empty provided every action line still has text after its bullet
marker is stripped; a line consisting of a bullet marker alone (or a
bullet marker followed only by whitespace) yields an empty title. -/
theorem claim2_titles_nonempty_amended : ∀ (text : List Char),
    (∀ l ∈ actionLines text, stripBullet l ≠ []) →
    ∀ t ∈ (mockExtract text).tasks, t.title ≠ [] := by
  intro text hl t ht
  rw [mockExtract_tasks_eq] at ht
  by_cases he : ((actionLines text).map lineToTask).isEmpty = true
  · rw [if_pos he] at ht
    have : t = fallbackTask := by simpa using ht
    subst this
    show fallbackTask.title ≠ []
    decide
  · rw [if_neg he] at ht
    obtain ⟨l, hmem, hlt⟩ := List.mem_map.mp ht
    have : t.title = mkTitle (stripBullet l) := by rw [← hlt]; rfl
    rw [this]
    exact mkTitle_ne_nil (hl l hmem)

/-- Claim C2 witness at a concrete input. -/
theorem claim2_witness :
    (∀ l ∈ actionLines "todo ship the report".toList, stripBullet l ≠ []) ∧
    (∀ t ∈ (mockExtract "todo ship the report".toList).tasks, t.title ≠ []) :=
  ⟨by decide, claim2_titles_nonempty_amended _ (by decide)⟩

/-- Claim C2 counterexample: the input consisting of a single dash is
an action line (bullet test), strips to the empty string, and yields
a Task whose title is empty — the unconditional claim is false. -/
theorem claim2_dash_empty_title_cex :
    ((mockExtract "-".toList).tasks.map Task.title) = [[]] := by decide

/-- Claim C3: `tidy` is idempotent — re-running it on its own output
changes nothing, for every string. -/
theorem claim3_tidy_idempotent : ∀ (t : List Char), tidy (tidy t) = tidy t :=
  tidy_tidy

/-- Claim C4 (amended): on the line
`"- Action: Ship the report by Monday. Assigned to Priya."` the
assignee is `"Monday"`, not `"Priya"`: the three connectors live in
one regex, a JavaScript `match` takes the leftmost position that
matches, and `"by Monday"` comes before `"Assigned to Priya"` in the
line. -/
theorem claim4_assignee_monday_amended :
    ((mockExtract "- Action: Ship the report by Monday. Assigned to Priya.".toList).tasks.map
      Task.assignee) = [some "Monday".toList] := by decide

/-- Claim C4 counterexample: the assignee on that line is not
`"Priya"`. -/
theorem claim4_priya_cex :
    ¬ ((mockExtract "- Action: Ship the report by Monday. Assigned to Priya.".toList).tasks.map
        Task.assignee) = [some "Priya".toList] := by decide

/-- Claim C5 (amended): the `i` flag applies to the whole first-tier
pattern, `[A-Z][a-zA-Z]+` included, so the captured NAME may start
with a letter of either case; what the first tier guarantees is only
that the capture is a word of at least two ASCII letters. -/
theorem claim5_first_tier_any_case_amended : ∀ (l name : List Char),
    assignFirstTier l = some name →
    2 ≤ name.length ∧ name.all isAsciiLetter = true := by
  intro l name h
  obtain ⟨p', l', hf⟩ := scanStr_some l none name h
  exact assignAt_shape hf

/-- Claim C5 witness at a concrete input. -/
theorem claim5_witness :
    2 ≤ ("priya".toList).length ∧ ("priya".toList).all isAsciiLetter = true :=
  claim5_first_tier_any_case_amended "assigned to priya".toList "priya".toList
    (by decide)

/-- Claim C5 counterexample: the first tier matches `"assigned to
priya"` and captures the lower-case word `"priya"`, so the claim that
a first-tier assignee must begin with an uppercase letter is false. -/
theorem claim5_lowercase_cex :
    assignFirstTier "assigned to priya".toList = some "priya".toList ∧
    isAsciiUpper 'p' = false := by decide

/-- Claim C6: a bullet followed by 300 `'a'` characters yields
exactly one Task, whose title is 247 `'a'`s plus `"..."` — length
250, ending in the ellipsis marker. -/
theorem claim6_truncation :
    ((mockExtract ('-' :: ' ' :: List.replicate 300 'a')).tasks.map Task.title) =
      [List.replicate 247 'a' ++ "...".toList] ∧
    ((mockExtract ('-' :: ' ' :: List.replicate 300 'a')).tasks.map
      (fun t => t.title.length)) = [250] ∧
    ((mockExtract ('-' :: ' ' :: List.replicate 300 'a')).tasks.map
      (fun t => t.title.drop 247)) = ["...".toList] := by
  set_option maxRecDepth 8000 in decide

/-- Claim C7 (amended): the follow-up is the `tidy` image of the
fixed template built around the `"; "`-joined titles; the joined
titles appear verbatim in that template (but `tidy` may rewrite
punctuation and whitespace inside them, see the counterexample), the
result always ends with the confirm-owners-and-timelines sentence,
and it contains no two adjacent periods and no two adjacent
whitespace characters. -/
theorem claim7_followUp_shape_amended : ∀ (text : List Char),
    (mockExtract text).followUp =
      tidy (followUpTemplate ((mockExtract text).tasks.map Task.title)) ∧
    containsSeq (joinTitles ((mockExtract text).tasks.map Task.title))
      (followUpTemplate ((mockExtract text).tasks.map Task.title)) = true ∧
    (∃ z, (mockExtract text).followUp = z ++ confirmTail) ∧
    pairwiseOk badDotDot (mockExtract text).followUp = true ∧
    pairwiseOk badWsWs (mockExtract text).followUp = true := by
  intro text
  refine ⟨mockExtract_followUp_eq text, ?_, mockExtract_followUp_ends text, ?_, ?_⟩
  · show containsSeq (joinTitles _) (followUpTemplate _) = true
    unfold followUpTemplate
    rw [List.append_assoc]
    exact containsSeq_append_mid _ _ _
  · rw [mockExtract_followUp_eq]
    exact tidy_pw2 _
  · rw [mockExtract_followUp_eq]
    exact tidy_pw3 _

/-- Claim C7 counterexample: for the input `"- a ."` the single title
is `"a ."`, but the follow-up (after `tidy`) no longer contains that
title verbatim — the claim that the follow-up contains every title
joined by `"; "` is false. -/
theorem claim7_title_rewritten_cex :
    ((mockExtract "- a .".toList).tasks.map Task.title) = ["a .".toList] ∧
    containsSeq (joinTitles ((mockExtract "- a .".toList).tasks.map Task.title))
      ((mockExtract "- a .".toList).followUp) = false := by decide

/-- Claim C8: the heuristic extractor is total — embedded as a total
Lean function of the source's (all-total) string operations — and for
every input it returns a well-formed result: at least one task and a
non-empty follow-up. -/
theorem claim8_mockExtract_total_contract : ∀ (text : List Char),
    1 ≤ (mockExtract text).tasks.length ∧ (mockExtract text).followUp ≠ [] := by
  intro text
  constructor
  · cases h : (mockExtract text).tasks with
    | nil => exact absurd h (mockExtract_tasks_ne text)
    | cons t ts => simp
  · obtain ⟨z, hz⟩ := mockExtract_followUp_ends text
    rw [hz]
    intro hnil
    rw [List.append_eq_nil] at hnil
    exact absurd hnil.2 (by decide)

/-- Claim C9 (amended): when the direct `JSON.parse` of the content
throws and the first-`{`-to-last-`}` substring (if any) does not
parse either, the model path fails with the UpstreamError message
"response could not be parsed".  (When the content parses directly
to a non-object, non-null JSON value, the code instead returns a
result with the `tasks` default — see the counterexample.) -/
theorem claim9_unparseable_upstream_error_amended : ∀ (content : List Char),
    jsonParse content = none →
    (∀ sub, jsonSubstring content = some sub → jsonParse sub = none) →
    callOpenAIExtractOnContent content = Except.error upstreamMsg := by
  intro content h1 h2
  rw [show callOpenAIExtractOnContent content = openAIFallbackParse content by
        simp [callOpenAIExtractOnContent, h1]]
  cases hs : jsonSubstring content with
  | none => simp [openAIFallbackParse, hs]
  | some sub => simp [openAIFallbackParse, hs, h2 sub hs]

/-- Claim C9 witness at a concrete input. -/
theorem claim9_witness :
    callOpenAIExtractOnContent "no json at all".toList =
      Except.error upstreamMsg :=
  claim9_unparseable_upstream_error_amended "no json at all".toList rfl
    (by
      intro sub h
      rw [show jsonSubstring "no json at all".toList = none from rfl] at h
      exact Option.noConfusion h)

/-- Claim C9 counterexample: `"[1,2]"` contains no JSON object,
directly or as a `{...}` substring, yet the model path returns a
success (with the defaulted empty `tasks`) instead of failing with an
UpstreamError — the claim as stated is false. -/
theorem claim9_array_ok_cex :
    noObjectParse "[1,2]".toList = true ∧
    isErrResult (callOpenAIExtractOnContent "[1,2]".toList) = false :=
  ⟨rfl, rfl⟩

/-- Claim C10: re-applying the presentation layer's `cleanFollowUp`
to text already normalised by the API layer's `tidy` changes
nothing — the two cleaners are the same transformation and it is
idempotent. -/
theorem claim10_cleanFollowUp_after_tidy : ∀ (s : List Char),
    cleanFollowUp (tidy s) = tidy s := by
  intro s
  show tidy (tidy s) = tidy s
  exact tidy_tidy s

end Pulse
